import Mathlib

/-!
Verification of the PharmaSense ingestion and query core.

The definitions below are a shallow embedding of the Python sources:
  * `graphdb.py`  — `normalize_description`, the per-record body of
    `process_batch`, and the batch/checkpoint loop of
    `import_to_neo4j_with_recovery`;
  * `crossdb.py`  — the entity-search query of
    `_get_single_entity_relationships` and the row production plus
    pair-deduplication of `_get_multi_entity_relationships`;
  * `main.py`     — the filter loop of `find_drug_alternatives`;
  * `vectordb.py` — the batched `PointStruct` upload loop.

Strings are modelled as `List Char` (for the regex-substitution model) or
Lean `String`s (for graph/query state); similarity scores are modelled as
rationals, standing for the IEEE floats of the source whose only use in the
modelled code is order comparison against the literal 0.98.
-/

namespace PharmaSense

/-! ### Python string primitives (ASCII fragment) -/

/-- Python `str.strip()` whitespace set, restricted to ASCII. -/
def isSpaceB (c : Char) : Bool :=
  c == ' ' || c == '\t' || c == '\n' || c == '\r' || c == '\x0b' || c == '\x0c'

/-- Python `str.strip()` on a character list. -/
def pyStrip (s : List Char) : List Char :=
  ((s.dropWhile isSpaceB).reverse.dropWhile isSpaceB).reverse

/-- Python `str.strip()` on a `String`. -/
def pyStripS (s : String) : String :=
  ⟨pyStrip s.data⟩

/-- ASCII lower-casing of a character list (Python `str.lower()` on ASCII). -/
def lowerL (s : List Char) : List Char :=
  s.map Char.toLower

/-- ASCII lower-casing of a `String`. -/
def lowerS (s : String) : String :=
  ⟨lowerL s.data⟩

/-- Python regex word character `\w`, ASCII fragment: `[A-Za-z0-9_]`. -/
def isWordCharB (c : Char) : Bool :=
  c.isAlpha || c.isDigit || c == '_'

/-! ### The `re.sub(r'\b' + re.escape(name) + r'\b', repl, s, flags=IGNORECASE)`
calls of `normalize_description` (graphdb.py lines 71-77).

`re.escape` makes `name` a literal, so the pattern is: word boundary,
the literal `name` case-insensitively, word boundary.  `reSubAux` is the
standard leftmost, non-overlapping scan for a non-empty literal;
`reSubEmptyAux` is Python's behaviour for the empty literal, where the
pattern degenerates to `\b\b` (an empty match at every word boundary). -/

/-- Is the character at index `k` a word character (out of range counts as no)? -/
def wordAt (s : List Char) (k : Nat) : Bool :=
  match s.get? k with
  | some c => isWordCharB c
  | none => false

/-- Is the character just before index `k` a word character? -/
def prevWord (s : List Char) (k : Nat) : Bool :=
  if k = 0 then false else wordAt s (k - 1)

/-- Regex `\b`: positions where wordness changes (string ends count as non-word). -/
def boundaryB (s : List Char) (k : Nat) : Bool :=
  prevWord s k != wordAt s k

/-- Does the pattern `\b name \b` (with `name` a case-insensitive literal)
match `s` at position `i`? -/
def matchesAtB (s : List Char) (i : Nat) (name : List Char) : Bool :=
  decide (i + name.length ≤ s.length) &&
  lowerL ((s.drop i).take name.length) == lowerL name &&
  boundaryB s i && boundaryB s (i + name.length)

/-- Does `s` contain a whole-word, case-insensitive occurrence of `name`
anywhere? -/
def hasWWOcc (s : List Char) (name : List Char) : Bool :=
  (List.range s.length).any (fun i => matchesAtB s i name)

/-- Leftmost, non-overlapping substitution scan for a non-empty literal,
starting at position `i`: exactly `re.sub`'s behaviour on `\b lit \b`.
The `fuel` argument only makes the recursion structural: every step advances
`i` by at least one, so any `fuel ≥ s.length - i` yields the scan's value
(`reSubAux_congr` below), and the fuel-0 case coincides with the
end-of-string case. -/
def reSubAux (s name repl : List Char) : Nat → Nat → List Char
  | 0, _ => []
  | fuel + 1, i =>
    if h : i < s.length then
      if 0 < name.length ∧ matchesAtB s i name = true then
        repl ++ reSubAux s name repl fuel (i + name.length)
      else
        s.get ⟨i, h⟩ :: reSubAux s name repl fuel (i + 1)
    else []

/-- Python `re.sub` scan for the empty literal: the pattern is `\b\b`, an
empty match at every word-boundary position (including position `s.length`).
`fuel` as in `reSubAux`; any `fuel ≥ s.length - i + 1` gives the scan. -/
def reSubEmptyAux (s repl : List Char) : Nat → Nat → List Char
  | 0, _ => []
  | fuel + 1, i =>
    if h : i < s.length then
      (if boundaryB s i then repl else []) ++
        s.get ⟨i, h⟩ :: reSubEmptyAux s repl fuel (i + 1)
    else
      if boundaryB s i then repl else []

/-- `re.sub(r'\b' + re.escape(name) + r'\b', repl, s, flags=re.IGNORECASE)`. -/
def reSub (s name repl : List Char) : List Char :=
  if name.isEmpty then reSubEmptyAux s repl (s.length + 1) 0
  else reSubAux s name repl s.length 0

/-- The `<drugA>` placeholder text. -/
def drugAPh : List Char := "<drugA>".data

/-- The `<drugB>` placeholder text. -/
def drugBPh : List Char := "<drugB>".data

/-- `normalize_description` (graphdb.py lines 71-77): substitute whole-word
occurrences of `drug_a` by `<drugA>`, then of `drug_b` by `<drugB>`, and
strip the result. -/
def normalize_description (desc drug_a drug_b : List Char) : List Char :=
  pyStrip (reSub (reSub desc drug_a drugAPh) drug_b drugBPh)

/-- `normalize_description` on `String`s. -/
def normalizeS (desc drug_a drug_b : String) : String :=
  ⟨normalize_description desc.data drug_a.data drug_b.data⟩

example : normalizeS "Lepirudin may increase the anticoagulant activities of Apixaban."
    "Lepirudin" "Apixaban"
    = "<drugA> may increase the anticoagulant activities of <drugB>." := by decide

example : normalizeS "Apixaban may increase the anticoagulant activities of Lepirudin."
    "Apixaban" "Lepirudin"
    = "<drugA> may increase the anticoagulant activities of <drugB>." := by decide

example : reSub "aspirin is good".data "pirin".data drugAPh = "aspirin is good".data := by
  decide

example : normalizeS "ab" "" "x" = "<drugA>ab<drugA>" := by decide

/-! ### Graph-store state and the per-record body of `process_batch`
(graphdb.py lines 122-239).

The Neo4j store is modelled as association lists in insertion order (MERGE
with a uniqueness constraint keeps node/edge keys unique, and the Cypher
queries of `process_batch` only ever create or update, never delete).
A record is one validated 5-field TSV row; `process_batch` strips each
field on unpacking (line 164-165). -/

/-- One validated input row: `(drug_a_id, drug_a_name, drug_b_id, drug_b_name,
description)`. -/
structure Rec where
  a_id : String
  a_name : String
  b_id : String
  b_name : String
  desc : String
deriving DecidableEq, Repr

/-- The graph store: Drug nodes `(id, name)`, directed INTERACTS_WITH edges
`(a_id, b_id, description)`, Reaction nodes `(id, normalized_desc, example)`,
and HAS_REACTION edges `(drug_id, reaction_id)`. -/
structure Graph where
  drugs : List (String × String)
  inters : List (String × String × String)
  reactions : List (String × String × String)
  hasReaction : List (String × String)
deriving DecidableEq, Repr

/-- The running `stats` counters of `process_batch` that the modelled code
updates per record.  (`drugs_created` is fed by the per-batch `drugs_seen`
set and `total_records`/`start_time` are reporting-only; none of them is
read back by the pipeline and no claim mentions them, so they are left out.) -/
structure Stats where
  processed_records : Nat
  interactions_created : Nat
  interactions_skipped : Nat
  reactions_created : Nat
  drug_reaction_links : Nat
  drug_reaction_links_skipped : Nat
deriving DecidableEq, Repr

/-- Ingestion state threaded through `process_batch`: the graph store, the
`reaction_map` (canonical description → reaction id, a dict modelled as an
insertion-ordered association list), the `reaction_counter`, and `stats`. -/
structure St where
  g : Graph
  m : List (String × String)
  c : Nat
  stats : Stats
deriving DecidableEq, Repr

/-- Association-list lookup (Python dict read `reaction_map[normalized]`). -/
def lookupA (m : List (String × String)) (k : String) : Option String :=
  (m.find? (fun p => p.1 == k)).map (·.2)

/-- Cypher `MERGE` on a node keyed by its unique id property: match the
node and `SET` its value fields if present, else create it. -/
def mergeNode {β : Type} (ds : List (String × β)) (id : String) (v : β) :
    List (String × β) :=
  if ds.any (fun d => d.1 == id) then
    ds.map (fun d => if d.1 == id then (id, v) else d)
  else ds ++ [(id, v)]

/-- `MERGE (d:Drug {id: $drug_id}) SET d.name = $drug_name`. -/
def mergeDrug (ds : List (String × String)) (id name : String) :
    List (String × String) :=
  mergeNode ds id name

/-- The `interaction_check_query`: is there already an INTERACTS_WITH edge
for the ordered pair `(a, b)`? -/
def interExists (is : List (String × String × String)) (a b : String) : Bool :=
  is.any (fun e => e.1 == a && e.2.1 == b)

/-- `MERGE (r:Reaction {id: $reaction_id}) SET r.normalized_desc, r.example`. -/
def mergeReaction (rs : List (String × String × String))
    (rid norm ex : String) : List (String × String × String) :=
  mergeNode rs rid (norm, ex)

/-- The `reaction_link_check_query`: does drug `d` already link to reaction
`rid`? -/
def hasLink (hr : List (String × String)) (d rid : String) : Bool :=
  hr.any (fun e => e.1 == d && e.2 == rid)

/-- Python `f"R{c:04d}"`. -/
def ridStr (c : Nat) : String :=
  "R" ++ ⟨List.replicate (4 - (Nat.repr c).length) '0'⟩ ++ Nat.repr c

/-- The body of `process_batch`'s per-record loop (graphdb.py lines 160-231):
strip the five fields, MERGE both Drug nodes, check-then-create the
INTERACTS_WITH edge, canonicalize the description and allocate/create the
Reaction node if its canonical form is new, then check-then-create the two
HAS_REACTION links (the second check runs against the store as left by the
first, matching the in-transaction visibility of the Cypher queries). -/
def process_record (st : St) (r : Rec) : St :=
  let aId := pyStripS r.a_id
  let aName := pyStripS r.a_name
  let bId := pyStripS r.b_id
  let bName := pyStripS r.b_name
  let desc := pyStripS r.desc
  let drugs1 := mergeDrug (mergeDrug st.g.drugs aId aName) bId bName
  let interDup := interExists st.g.inters aId bId
  let inters1 := if interDup then st.g.inters else st.g.inters ++ [(aId, bId, desc)]
  let stats1 :=
    if interDup then
      { st.stats with interactions_skipped := st.stats.interactions_skipped + 1 }
    else
      { st.stats with interactions_created := st.stats.interactions_created + 1 }
  let norm := normalizeS desc aName bName
  let found := lookupA st.m norm
  let rid := found.getD (ridStr st.c)
  let m1 := if found.isSome then st.m else st.m ++ [(norm, rid)]
  let c1 := if found.isSome then st.c else st.c + 1
  let reacts1 :=
    if found.isSome then st.g.reactions else mergeReaction st.g.reactions rid norm desc
  let stats2 :=
    if found.isSome then stats1
    else { stats1 with reactions_created := stats1.reactions_created + 1 }
  let dupA := hasLink st.g.hasReaction aId rid
  let hr1 := if dupA then st.g.hasReaction else st.g.hasReaction ++ [(aId, rid)]
  let stats3 :=
    if dupA then
      { stats2 with drug_reaction_links_skipped := stats2.drug_reaction_links_skipped + 1 }
    else
      { stats2 with drug_reaction_links := stats2.drug_reaction_links + 1 }
  let dupB := hasLink hr1 bId rid
  let hr2 := if dupB then hr1 else hr1 ++ [(bId, rid)]
  let stats4 :=
    if dupB then
      { stats3 with drug_reaction_links_skipped := stats3.drug_reaction_links_skipped + 1 }
    else
      { stats3 with drug_reaction_links := stats3.drug_reaction_links + 1 }
  { g := { drugs := drugs1, inters := inters1, reactions := reacts1,
           hasReaction := hr2 },
    m := m1, c := c1,
    stats := { stats4 with processed_records := stats4.processed_records + 1 } }

/-- Sequential processing of a record list.  `import_to_neo4j_with_recovery`
(graphdb.py lines 300-320) cuts the list into contiguous `BATCH_SIZE` slices
and `process_batch` loops over each slice in order, so a completed run
applies `process_record` to every record in input order; the batch
boundaries matter only for checkpoint timing, modelled separately by
`ingestTrace`. -/
def processRecords (st : St) (rs : List Rec) : St :=
  rs.foldl process_record st

/-- Fresh ingestion state (graphdb.py lines 279-292): empty graph and
`reaction_map`, `reaction_counter = 1`, zeroed stats. -/
def initialState : St :=
  { g := { drugs := [], inters := [], reactions := [], hasReaction := [] },
    m := [], c := 1,
    stats := { processed_records := 0, interactions_created := 0,
               interactions_skipped := 0, reactions_created := 0,
               drug_reaction_links := 0, drug_reaction_links_skipped := 0 } }

/-- Record 1 of the spec's end-to-end example. -/
def rec1 : Rec :=
  ⟨"D1", "Lepirudin", "D2", "Apixaban",
   "Lepirudin may increase the anticoagulant activities of Apixaban."⟩

/-- Record 2 of the spec's end-to-end example. -/
def rec2 : Rec :=
  ⟨"D2", "Apixaban", "D1", "Lepirudin",
   "Apixaban may increase the anticoagulant activities of Lepirudin."⟩

example :
    (processRecords initialState [rec1, rec2]).g.drugs.length = 2 ∧
    (processRecords initialState [rec1, rec2]).g.inters.length = 2 ∧
    (processRecords initialState [rec1, rec2]).g.reactions.length = 1 ∧
    (processRecords initialState [rec1, rec2]).g.hasReaction.length = 2 := by
  decide

/-! ### Entity resolution in the graph store
(`entity_search_query` of `_get_single_entity_relationships`,
crossdb.py lines 250-267).

The Cypher query filters Drug nodes by
`toLower(name) = q  OR  toLower(id) = q  OR  toLower(name) CONTAINS q`
(with `q` the lower-cased query), orders by the CASE tier
(name-equal = 1, id-equal = 2, else 3) and takes `LIMIT 1`.  Ties inside a
tier fall back to store order, modelled as insertion order. -/

/-- Does `needle` occur as a contiguous substring of `hay`
(Cypher `hay CONTAINS needle`)? -/
def strContains (hay needle : List Char) : Bool :=
  (List.range (hay.length + 1)).any
    (fun i => (hay.drop i).take needle.length == needle)

/-- Tier-1 test: exact case-insensitive match on the node name. -/
def nameEqCI (q : String) (d : String × String) : Bool :=
  lowerS d.2 == lowerS q

/-- Tier-2 test: exact case-insensitive match on the node id. -/
def idEqCI (q : String) (d : String × String) : Bool :=
  lowerS d.1 == lowerS q

/-- Tier-3 test: the lower-cased query is contained in the lower-cased
stored name (`toLower(e.name) CONTAINS toLower($entity_name)`). -/
def nameContainsQ (q : String) (d : String × String) : Bool :=
  strContains (lowerS d.2).data (lowerS q).data

/-- The WHERE clause of `entity_search_query`. -/
def entityMatches (q : String) (d : String × String) : Bool :=
  nameEqCI q d || idEqCI q d || nameContainsQ q d

/-- `entity_search_query` with `ORDER BY` tier and `LIMIT 1`: the first
store-order node of the best matching tier, or none. -/
def entity_search (drugs : List (String × String)) (q : String) :
    Option (String × String) :=
  let cands := drugs.filter (entityMatches q)
  match cands.find? (nameEqCI q) with
  | some d => some d
  | none =>
    match cands.find? (idEqCI q) with
    | some d => some d
    | none => cands.head?

/-! ### Multi-entity relationship query
(`_get_multi_entity_relationships`, crossdb.py lines 366-423).

The Cypher pattern `(e1)-[r:TYPE]-(e2)` is undirected, so each stored edge
is considered under both variable bindings; the WHERE clause keeps bindings
whose two node names are (case-insensitively) in the query set and with
`e1.name < e2.name`; `RETURN DISTINCT ... LIMIT limit` keeps the first
occurrence of each distinct row up to `limit`.  The Python loop then drops
every row whose alphabetically-sorted name pair was already seen. -/

/-- One returned row of the multi-entity Cypher query. -/
structure MRow where
  e1_name : String
  e1_id : String
  rel_desc : String
  e2_name : String
  e2_id : String
deriving DecidableEq, Repr

/-- Name of the drug node with the given id (`e.name`). -/
def nameOf (g : Graph) (id : String) : String :=
  ((g.drugs.find? (fun d => d.1 == id)).map (·.2)).getD ""

/-- Codepoint-lexicographic strict order on character lists: the string
comparison Cypher's `<` and Python's `sorted` both use. -/
def strLtB : List Char → List Char → Bool
  | [], [] => false
  | [], _ :: _ => true
  | _ :: _, [] => false
  | a :: as, b :: bs =>
    if a < b then true else if b < a then false else strLtB as bs

/-- Strict string order on `String`s. -/
def strLtS (a b : String) : Bool := strLtB a.data b.data

/-- All rows produced by the Cypher `MATCH (e1)-[r]-(e2) WHERE ... AND
e1.name < e2.name`: both orientations of every INTERACTS_WITH edge,
filtered. -/
def multiRows (g : Graph) (names : List String) : List MRow :=
  let lowNames := names.map lowerS
  g.inters.flatMap (fun e =>
    [(e.1, e.2.1, e.2.2), (e.2.1, e.1, e.2.2)].filterMap
      (fun o =>
        let nx := nameOf g o.1
        let ny := nameOf g o.2.1
        if lowNames.contains (lowerS nx) && lowNames.contains (lowerS ny) &&
            strLtS nx ny then
          some ⟨nx, o.1, o.2.2, ny, o.2.1⟩
        else none))

/-- Python `tuple(sorted([entity1_name, entity2_name]))`. -/
def pairKey (r : MRow) : String × String :=
  if strLtS r.e2_name r.e1_name then (r.e2_name, r.e1_name)
  else (r.e1_name, r.e2_name)

/-- One step of the Python dedup loop: skip a row whose sorted name pair is
in `seen_pairs`, else keep it and remember the pair. -/
def dedupStep (acc : List MRow × List (String × String)) (row : MRow) :
    List MRow × List (String × String) :=
  if acc.2.contains (pairKey row) then acc
  else (acc.1 ++ [row], acc.2 ++ [pairKey row])

/-- The Python dedup loop over `seen_pairs`. -/
def dedupByPair (rows : List MRow) : List MRow :=
  (rows.foldl dedupStep ([], [])).1

/-- `_get_multi_entity_relationships`: Cypher rows, `DISTINCT`, `LIMIT`,
then the Python pair dedup. -/
def multiEntityRelationships (g : Graph) (names : List String) (limit : Nat) :
    List MRow :=
  dedupByPair (((multiRows g names).dedup).take limit)

/-! ### Similar-drug filtering (`find_drug_alternatives`, main.py lines
68-99).

The Qdrant search result is abstracted as the input list of
(entity_name, similarity_score) entries; scores are modelled as rationals
(the floats of the source are only compared against the literal 0.98). -/

/-- One similarity-search result entry. -/
structure SimEntry where
  entity_name : String
  similarity_score : ℚ
deriving DecidableEq

/-- Python `s.lower().strip()`. -/
def lowerTrim (s : String) : String :=
  pyStripS (lowerS s)

/-- One step of the `find_drug_alternatives` filter loop: append an entry
whose lowered/stripped name differs from the query's and whose score is
below 0.98, while fewer than 5 have been kept. -/
def altStep (drug_name : String) (acc : List SimEntry) (e : SimEntry) :
    List SimEntry :=
  if lowerTrim e.entity_name ≠ lowerTrim drug_name ∧
      e.similarity_score < 98/100 ∧ acc.length < 5 then
    acc ++ [e]
  else acc

/-- The filter loop of `find_drug_alternatives`, then `[:5]`. -/
def find_drug_alternatives (drug_name : String) (alts : List SimEntry) :
    List SimEntry :=
  (alts.foldl (altStep drug_name) []).take 5

/-- Descending order on similarity scores (the Qdrant result ranking). -/
abbrev scoreDesc (a b : SimEntry) : Prop :=
  b.similarity_score ≤ a.similarity_score

/-! ### Vector upload (vectordb.py lines 84-108).

The batched loop builds, for each source index `idx`, a point with
`id = idx`, `payload.drug_name = str(drug_names[idx])` and
`payload.drug_id = str(idx)`.  The embedding vector and the upload
timestamp are payload pass-through not examined by any claim (floats and
wall-clock time) and are not modelled. -/

/-- One uploaded Qdrant point (id and the modelled payload fields). -/
structure Point where
  pid : Nat
  drug_name : String
  drug_id : String
deriving DecidableEq, Repr

/-- The points of one batch `range(batch_start, batch_end)`. -/
def batchPoints (names : List String) (s e : Nat) : List Point :=
  (List.range' s (e - s)).map
    (fun idx => ⟨idx, names.getD idx "", Nat.repr idx⟩)

/-- The batch loop `for batch_start in range(0, total_vectors, BATCH_SIZE)`,
as the concatenation of all uploaded batches; `fuel` makes the recursion
structural exactly as in `reSubAux`. -/
def uploadLoop (names : List String) (bs : Nat) : Nat → Nat → List Point
  | 0, _ => []
  | fuel + 1, s =>
    let e := min (s + bs) names.length
    if s < e then batchPoints names s e ++ uploadLoop names bs fuel e
    else []

/-- All points uploaded for `names` with batch size `bs`. -/
def uploadPoints (names : List String) (bs : Nat) : List Point :=
  uploadLoop names bs (names.length + 1) 0

/-! ### Checkpoint timing (`import_to_neo4j_with_recovery`,
graphdb.py lines 300-375).

A successful run emits, per batch, the committed graph transaction
(`session.execute_write`) followed by `save_checkpoint(batch_end, ...)`,
and ends with `clear_checkpoint()`. -/

/-- Observable events of an ingestion run. -/
inductive Event where
  | commit (startIdx endIdx : Nat)
  | save (processedCount : Nat)
  | clearCp
deriving DecidableEq, Repr

/-- Event trace of a successful run over `n` records starting at offset `s`
with batch size `bs` (`for batch_start in range(start_index, len(data),
BATCH_SIZE)`; `batch_end = min(batch_start + BATCH_SIZE, len(data))`).
For `bs = 0` Python's `range` raises; the model then emits no batch. -/
def ingestTrace (n bs : Nat) : Nat → List Event
  | s =>
    if _h : s < min (s + bs) n then
      .commit s (min (s + bs) n) :: .save (min (s + bs) n) ::
        ingestTrace n bs (min (s + bs) n)
    else [.clearCp]
termination_by s => n - s
decreasing_by omega

example : ingestTrace 7 3 0 =
    [.commit 0 3, .save 3, .commit 3 6, .save 6, .commit 6 7, .save 7,
     .clearCp] := by
  simp [ingestTrace]

/-! ## Claim C1 — the end-to-end example scenario -/

/-- C1, counterexample: ingesting the two example records into an empty
store leaves exactly 2 HAS_REACTION edges, not the 4 the claim asserts:
record 2's two `reaction_link_check_query` probes find the links created by
record 1 (both drugs already link to the single shared reaction), so both
are counted as skipped. -/
theorem c1_counterexample :
    (processRecords initialState [rec1, rec2]).g.hasReaction.length = 2 ∧
    (processRecords initialState [rec1, rec2]).g.hasReaction.length ≠ 4 := by
  decide

/-- C1, amended: the scenario produces exactly 2 Drug nodes, exactly 1
Reaction node whose canonical description is
`<drugA> may increase the anticoagulant activities of <drugB>.`, exactly 2
INTERACTS_WITH edges (one per ordered pair, first-seen descriptions kept),
and exactly 2 HAS_REACTION links (one per drug to the shared reaction),
with 2 link creations skipped as duplicates. -/
theorem c1_scenario :
    (processRecords initialState [rec1, rec2]).g.drugs.length = 2 ∧
    (processRecords initialState [rec1, rec2]).g.reactions =
      [("R0001", "<drugA> may increase the anticoagulant activities of <drugB>.",
        "Lepirudin may increase the anticoagulant activities of Apixaban.")] ∧
    (processRecords initialState [rec1, rec2]).g.inters =
      [("D1", "D2", "Lepirudin may increase the anticoagulant activities of Apixaban."),
       ("D2", "D1", "Apixaban may increase the anticoagulant activities of Lepirudin.")] ∧
    (processRecords initialState [rec1, rec2]).g.hasReaction =
      [("D1", "R0001"), ("D2", "R0001")] ∧
    (processRecords initialState [rec1, rec2]).stats.drug_reaction_links_skipped = 2 := by
  decide

/-! ## Scan lemmas for the canonicalizer (claims C3 and C4) -/

/-- The fuel argument of `reSubAux` is irrelevant once it covers the
remaining positions. -/
theorem reSubAux_congr (s name repl : List Char) :
    ∀ fuel1 fuel2 i, s.length ≤ i + fuel1 → s.length ≤ i + fuel2 →
      reSubAux s name repl fuel1 i = reSubAux s name repl fuel2 i := by
  intro fuel1
  induction fuel1 with
  | zero =>
    intro fuel2 i h1 h2
    cases fuel2 with
    | zero => rfl
    | succ f2 =>
      simp only [reSubAux]
      rw [dif_neg (by omega)]
  | succ f1 ih =>
    intro fuel2 i h1 h2
    cases fuel2 with
    | zero =>
      simp only [reSubAux]
      rw [dif_neg (by omega)]
    | succ f2 =>
      simp only [reSubAux]
      by_cases h : i < s.length
      · rw [dif_pos h, dif_pos h]
        by_cases hm : 0 < name.length ∧ matchesAtB s i name = true
        · rw [if_pos hm, if_pos hm, ih f2 (i + name.length) (by omega) (by omega)]
        · rw [if_neg hm, if_neg hm, ih f2 (i + 1) (by omega) (by omega)]
      · rw [dif_neg h, dif_neg h]

/-- For a non-empty literal, no match is possible at or past the end of the
string. -/
theorem matchesAtB_false_of_ge (s name : List Char) (j : Nat)
    (hname : name ≠ []) (hj : s.length ≤ j) : matchesAtB s j name = false := by
  have hlen : 0 < name.length := List.length_pos.mpr hname
  simp only [matchesAtB, Bool.and_eq_false_iff]
  left; left; left
  simp only [decide_eq_false_iff_not]
  omega

/-- If `hasWWOcc s name = false` then no position matches at all. -/
theorem no_match_of_hasWWOcc_false (s name : List Char) (hname : name ≠ [])
    (h : hasWWOcc s name = false) : ∀ j, matchesAtB s j name = false := by
  intro j
  by_cases hj : j < s.length
  · have := List.any_eq_false.mp h j (List.mem_range.mpr hj)
    simpa using this
  · exact matchesAtB_false_of_ge s name j hname (by omega)

/-- A scan over a region with no matches copies the region verbatim. -/
theorem reSubAux_no_match (s name repl : List Char) :
    ∀ fuel i, s.length ≤ i + fuel →
      (∀ j, i ≤ j → matchesAtB s j name = false) →
      reSubAux s name repl fuel i = s.drop i := by
  intro fuel
  induction fuel with
  | zero =>
    intro i h1 _
    simp only [reSubAux]
    exact (List.drop_eq_nil_of_le (by omega)).symm
  | succ f ih =>
    intro i h1 h2
    simp only [reSubAux]
    by_cases h : i < s.length
    · rw [dif_pos h]
      have hm : ¬(0 < name.length ∧ matchesAtB s i name = true) := by
        intro ⟨_, hmm⟩
        rw [h2 i (Nat.le_refl i)] at hmm
        exact Bool.false_ne_true hmm
      rw [if_neg hm, ih (i + 1) (by omega) (fun j hj => h2 j (by omega))]
      rw [List.drop_eq_getElem_cons h]
      rfl
    · rw [dif_neg h]
      exact (List.drop_eq_nil_of_le (by omega)).symm

/-- If the non-empty literal `name` has no whole-word occurrence in `s`,
the substitution leaves `s` untouched. -/
theorem reSub_no_occ (s name repl : List Char) (hname : name ≠ [])
    (h : hasWWOcc s name = false) : reSub s name repl = s := by
  unfold reSub
  rw [if_neg (by simpa [List.isEmpty_iff] using hname)]
  rw [reSubAux_no_match s name repl s.length 0 (by omega)
    (fun j _ => no_match_of_hasWWOcc_false s name hname h j)]
  exact List.drop_zero s

/-- Scanning a match-free region up to the leftmost match position `i`
copies the region and replaces the match, then continues after it. -/
theorem reSubAux_to_match (s name repl : List Char) (i : Nat)
    (hmatch : matchesAtB s i name = true) (hname : 0 < name.length) :
    ∀ fuel k, k ≤ i → s.length ≤ k + fuel →
      (∀ j, k ≤ j → j < i → matchesAtB s j name = false) →
      reSubAux s name repl fuel k =
        (s.take i).drop k ++ repl ++
          reSubAux s name repl s.length (i + name.length) := by
  have hi : i < s.length := by
    simp only [matchesAtB, Bool.and_eq_true, decide_eq_true_eq] at hmatch
    omega
  intro fuel
  induction fuel with
  | zero =>
    intro k hk h1 _
    omega
  | succ f ih =>
    intro k hk h1 h2
    have hklt : k < s.length := by omega
    simp only [reSubAux]
    rw [dif_pos hklt]
    by_cases hki : k = i
    · subst hki
      rw [if_pos ⟨hname, hmatch⟩]
      have : (s.take k).drop k = [] :=
        List.drop_eq_nil_of_le (by simp only [List.length_take]; omega)
      rw [this, List.nil_append]
      rw [reSubAux_congr s name repl f s.length (k + name.length)
        (by omega) (by omega)]
    · have hklt2 : k < i := by omega
      rw [if_neg (by
        intro ⟨_, hmm⟩
        rw [h2 k (Nat.le_refl k) hklt2] at hmm
        exact Bool.false_ne_true hmm)]
      rw [ih (k + 1) (by omega) (by omega) (fun j hj hji => h2 j (by omega) hji)]
      have htk : k < (s.take i).length := by simp [List.length_take]; omega
      rw [List.drop_eq_getElem_cons htk, List.getElem_take]
      rfl

/-- The full leftmost-replacement step of `reSub` at the least matching
position `i`: the text before `i` is copied verbatim, the occurrence is
replaced by `repl`, and the scan continues after the occurrence. -/
theorem reSub_leftmost (s name repl : List Char) (i : Nat) (hname : name ≠ [])
    (hmatch : matchesAtB s i name = true)
    (hmin : ∀ j, j < i → matchesAtB s j name = false) :
    reSub s name repl =
      s.take i ++ repl ++ reSubAux s name repl s.length (i + name.length) := by
  unfold reSub
  rw [if_neg (by simpa [List.isEmpty_iff] using hname)]
  rw [reSubAux_to_match s name repl i hmatch (List.length_pos.mpr hname)
    s.length 0 (Nat.zero_le i) (by omega) (fun j _ hj => hmin j hj)]
  rw [List.drop_zero]

/-- Heads surviving `dropWhile p` falsify `p`. -/
theorem head?_dropWhile_not {α : Type} (p : α → Bool) (l : List α) {c : α}
    (h : (l.dropWhile p).head? = some c) : p c = false := by
  induction l with
  | nil => simp [List.dropWhile] at h
  | cons a t ih =>
    rw [List.dropWhile_cons] at h
    by_cases hp : p a
    · rw [if_pos hp] at h
      exact ih h
    · rw [if_neg hp] at h
      simp only [List.head?_cons, Option.some.injEq] at h
      rw [← h]
      exact Bool.of_not_eq_true hp

/-- The first character of a stripped string is not whitespace. -/
theorem pyStrip_head (l : List Char) {c : Char}
    (h : (pyStrip l).head? = some c) : isSpaceB c = false := by
  unfold pyStrip at h
  rw [List.head?_reverse] at h
  set X := l.dropWhile isSpaceB with hX
  obtain ⟨u, hu⟩ := List.dropWhile_suffix (l := X.reverse) isSpaceB
  have hne : X.reverse.dropWhile isSpaceB ≠ [] := by
    intro hnil
    rw [hnil] at h
    simp at h
  have h2 : X.reverse.getLast? = some c := by
    rw [← hu, List.getLast?_append_of_ne_nil u hne]
    exact h
  rw [List.getLast?_reverse, hX] at h2
  exact head?_dropWhile_not isSpaceB l h2

/-- The last character of a stripped string is not whitespace. -/
theorem pyStrip_last (l : List Char) {c : Char}
    (h : (pyStrip l).getLast? = some c) : isSpaceB c = false := by
  unfold pyStrip at h
  rw [List.getLast?_reverse] at h
  exact head?_dropWhile_not isSpaceB _ h

/-- `dropWhile` is the identity when the head already falsifies the
predicate. -/
theorem dropWhile_eq_self_of_head {α : Type} (p : α → Bool) (l : List α)
    {c : α} (hc : l.head? = some c) (hp : p c = false) :
    l.dropWhile p = l := by
  cases l with
  | nil => simp at hc
  | cons a t =>
    simp only [List.head?_cons, Option.some.injEq] at hc
    subst hc
    rw [List.dropWhile_cons, if_neg (by simp [hp])]

/-- `pyStrip` is the identity on strings with non-whitespace edges. -/
theorem pyStrip_eq_self (l : List Char)
    (h1 : ∀ c, l.head? = some c → isSpaceB c = false)
    (h2 : ∀ c, l.getLast? = some c → isSpaceB c = false) :
    pyStrip l = l := by
  cases l with
  | nil => rfl
  | cons a t =>
    unfold pyStrip
    rw [dropWhile_eq_self_of_head isSpaceB (a :: t) rfl (h1 a rfl)]
    obtain ⟨d, hd⟩ : ∃ d, (a :: t).reverse.head? = some d := by
      cases hrev : (a :: t).reverse with
      | nil => exact absurd hrev (by simp)
      | cons x xs => exact ⟨x, rfl⟩
    have hd2 : (a :: t).getLast? = some d := by
      rw [← List.head?_reverse]
      exact hd
    rw [dropWhile_eq_self_of_head isSpaceB (a :: t).reverse hd (h2 d hd2),
      List.reverse_reverse]

/-! ## Claim C3 — whole-word canonicalization -/

/-- C3: the substitution passes of `normalize_description` replace
case-insensitive whole-word occurrences of a non-empty name and leave
everything else untouched, and the result is whitespace-trimmed.
Part 1: with no whole-word occurrence anywhere (in particular when the name
occurs only as a proper substring inside longer words, as `pirin` inside
`aspirin`), the pass is the identity.  Part 2: at the leftmost whole-word
occurrence `i`, the text before `i` is copied verbatim, the occurrence is
replaced by the placeholder, and scanning continues after it (so every
whole-word occurrence is replaced left to right).  Part 3: the final result
carries no leading or trailing whitespace. -/
theorem c3_canonicalize_whole_word :
    (∀ desc name repl, name ≠ [] → hasWWOcc desc name = false →
      reSub desc name repl = desc) ∧
    (∀ desc name repl i, name ≠ [] → matchesAtB desc i name = true →
      (∀ j, j < i → matchesAtB desc j name = false) →
      reSub desc name repl =
        desc.take i ++ repl ++
          reSubAux desc name repl desc.length (i + name.length)) ∧
    (∀ desc a b c,
      ((normalize_description desc a b).head? = some c → isSpaceB c = false) ∧
      ((normalize_description desc a b).getLast? = some c → isSpaceB c = false)) := by
  refine ⟨reSub_no_occ, ?_, ?_⟩
  · intro desc name repl i hname hmatch hmin
    exact reSub_leftmost desc name repl i hname hmatch hmin
  · intro desc a b c
    exact ⟨fun h => pyStrip_head _ h, fun h => pyStrip_last _ h⟩

/-- C3 witness: `pirin` inside `aspirin` is not replaced, while the
whole-word occurrence of `lepirudin` (case-insensitively matching
`Lepirudin`) is. -/
theorem c3_witness :
    reSub "aspirin is good".data "pirin".data drugAPh = "aspirin is good".data ∧
    reSub "Lepirudin is strong".data "lepirudin".data drugAPh =
      drugAPh ++ " is strong".data := by
  constructor
  · exact c3_canonicalize_whole_word.1 "aspirin is good".data "pirin".data
      drugAPh (by decide) (by decide)
  · have h := c3_canonicalize_whole_word.2.1 "Lepirudin is strong".data
      "lepirudin".data drugAPh 0 (by decide) (by decide)
      (fun j hj => absurd hj (Nat.not_lt_zero j))
    rw [h]
    decide

/-! ## Claim C4 — empty name is not a no-op -/

/-- C4, counterexample: with an empty `drug_a`, the first substitution
pattern degenerates to `\b\b`, which matches the empty string at every word
boundary, so `normalize_description("ab", "", "x")` is
`<drugA>ab<drugA>`, not the `ab` the nameB-only canonicalization gives. -/
theorem c4_counterexample :
    normalize_description "ab".data "".data "x".data ≠
      pyStrip (reSub "ab".data "x".data drugBPh) := by
  decide

/-- Characters of an all-word-character string are word characters. -/
theorem wordAt_of_all (s : List Char) (hw : ∀ c ∈ s, isWordCharB c = true)
    (k : Nat) (hk : k < s.length) : wordAt s k = true := by
  unfold wordAt
  rw [List.get?_eq_getElem?, List.getElem?_eq_getElem hk]
  exact hw _ (List.getElem_mem hk)

/-- Past the end of the string there is no word character. -/
theorem wordAt_of_ge (s : List Char) (k : Nat) (h : s.length ≤ k) :
    wordAt s k = false := by
  unfold wordAt
  rw [List.get?_eq_getElem?, List.getElem?_eq_none h]

/-- The empty-literal scan over a non-empty all-word-character string
inserts `repl` only at the two outer boundaries: positions strictly inside
see word characters on both sides. -/
theorem reSubEmptyAux_word (s repl : List Char) (hs : s ≠ [])
    (hw : ∀ c ∈ s, isWordCharB c = true) :
    ∀ fuel i, i ≤ s.length → s.length + 1 ≤ i + fuel →
      reSubEmptyAux s repl fuel i =
        (if i = 0 then repl else []) ++ s.drop i ++ repl := by
  have hlen : 0 < s.length := List.length_pos.mpr hs
  intro fuel
  induction fuel with
  | zero => intro i h2 h3; omega
  | succ f ih =>
    intro i h2 h3
    simp only [reSubEmptyAux]
    by_cases h : i < s.length
    · rw [dif_pos h]
      by_cases hi0 : i = 0
      · subst hi0
        have hb0 : boundaryB s 0 = true := by
          unfold boundaryB prevWord
          rw [if_pos rfl, wordAt_of_all s hw 0 hlen]
          rfl
        rw [hb0, if_pos rfl, ih 1 (by omega) (by omega),
          if_neg (by omega), if_pos rfl, List.nil_append, List.drop_zero]
        obtain ⟨a, t, rfl⟩ : ∃ a t, s = a :: t := by
          cases s with
          | nil => exact absurd rfl hs
          | cons a t => exact ⟨a, t, rfl⟩
        simp
      · have hb : boundaryB s i = false := by
          unfold boundaryB prevWord
          rw [if_neg hi0, wordAt_of_all s hw (i - 1) (by omega),
            wordAt_of_all s hw i h]
          rfl
        rw [hb, if_neg (by simp), List.nil_append,
          ih (i + 1) (by omega) (by omega), if_neg (by omega),
          List.nil_append, if_neg hi0, List.nil_append,
          List.drop_eq_getElem_cons h]
        rfl
    · rw [dif_neg h]
      have hi : i = s.length := by omega
      have hb : boundaryB s i = true := by
        unfold boundaryB prevWord
        rw [if_neg (by omega), wordAt_of_all s hw (i - 1) (by omega),
          wordAt_of_ge s i (by omega)]
        rfl
      rw [hb, if_pos rfl, hi, List.drop_length, if_neg (by omega),
        List.nil_append, List.nil_append]

/-- C4, amended: when `drug_a` is the empty string, the first substitution
is not a no-op — the degenerate pattern `\b\b` inserts `<drugA>` at every
word boundary.  For a non-empty all-word-character description `w` the
boundaries are exactly the two ends, so (when `drug_b` is non-empty and has
no whole-word occurrence in the decorated text) the canonical form is
`<drugA>` ++ w ++ `<drugA>` rather than the result of the nameB-only
replacement. -/
theorem c4_empty_name_inserts_placeholders (w nameB : List Char)
    (hw1 : w ≠ []) (hw2 : ∀ c ∈ w, isWordCharB c = true)
    (hB1 : nameB ≠ [])
    (hB2 : hasWWOcc (drugAPh ++ w ++ drugAPh) nameB = false) :
    normalize_description w [] nameB = drugAPh ++ w ++ drugAPh := by
  have hfirst : reSub w [] drugAPh = drugAPh ++ w ++ drugAPh := by
    unfold reSub
    rw [if_pos List.isEmpty_nil,
      reSubEmptyAux_word w drugAPh hw1 hw2 (w.length + 1) 0 (by omega)
        (by omega),
      if_pos rfl, List.drop_zero]
  unfold normalize_description
  rw [hfirst, reSub_no_occ _ _ _ hB1 hB2]
  apply pyStrip_eq_self
  · intro c hc
    have hsplit : drugAPh ++ w ++ drugAPh =
        '<' :: ("drugA>".data ++ w ++ drugAPh) := by
      simp [drugAPh]
    rw [hsplit] at hc
    simp only [List.head?_cons, Option.some.injEq] at hc
    subst hc
    decide
  · intro c hc
    rw [List.getLast?_append_of_ne_nil _ (by decide)] at hc
    have hgt : drugAPh.getLast? = some '>' := by decide
    rw [hgt] at hc
    simp only [Option.some.injEq] at hc
    subst hc
    decide

/-- C4 witness: the amended behaviour at `w = "ab"`, `nameB = "x"`. -/
theorem c4_witness :
    normalize_description "ab".data [] "x".data =
      drugAPh ++ "ab".data ++ drugAPh :=
  c4_empty_name_inserts_placeholders "ab".data "x".data (by decide)
    (by decide) (by decide) (by decide)

/-! ## Store-operation lemmas for the ingestion pipeline (claims C2, C5) -/

/-- The stripped `drug_a_id` of a record. -/
def aIdOf (r : Rec) : String := pyStripS r.a_id

/-- The stripped `drug_b_id` of a record. -/
def bIdOf (r : Rec) : String := pyStripS r.b_id

/-- The stripped `drug_a_name` of a record. -/
def aNameOf (r : Rec) : String := pyStripS r.a_name

/-- The stripped `drug_b_name` of a record. -/
def bNameOf (r : Rec) : String := pyStripS r.b_name

/-- The stripped description of a record. -/
def descOf (r : Rec) : String := pyStripS r.desc

/-- The canonical description a record contributes. -/
def normOf (r : Rec) : String := normalizeS (descOf r) (aNameOf r) (bNameOf r)

/-- The reaction id a record resolves to in state `st`: the mapped id when
its canonical form is known, else the freshly formatted counter value. -/
def ridOf (st : St) (r : Rec) : String :=
  (lookupA st.m (normOf r)).getD (ridStr st.c)

/-- The ordered-pair key of an INTERACTS_WITH edge. -/
def iKey (e : String × String × String) : String × String := (e.1, e.2.1)

/-- The two check-then-create HAS_REACTION writes of one record. -/
def linkTwo (hr : List (String × String)) (a b rid : String) :
    List (String × String) :=
  let hr1 := if hasLink hr a rid then hr else hr ++ [(a, rid)]
  if hasLink hr1 b rid then hr1 else hr1 ++ [(b, rid)]

theorem pr_drugs (st : St) (r : Rec) :
    (process_record st r).g.drugs =
      mergeNode (mergeNode st.g.drugs (aIdOf r) (aNameOf r)) (bIdOf r)
        (bNameOf r) := rfl

theorem pr_inters (st : St) (r : Rec) :
    (process_record st r).g.inters =
      if interExists st.g.inters (aIdOf r) (bIdOf r) then st.g.inters
      else st.g.inters ++ [(aIdOf r, bIdOf r, descOf r)] := rfl

theorem pr_m (st : St) (r : Rec) :
    (process_record st r).m =
      if (lookupA st.m (normOf r)).isSome then st.m
      else st.m ++ [(normOf r, ridOf st r)] := rfl

theorem pr_c (st : St) (r : Rec) :
    (process_record st r).c =
      if (lookupA st.m (normOf r)).isSome then st.c else st.c + 1 := rfl

theorem pr_reactions (st : St) (r : Rec) :
    (process_record st r).g.reactions =
      if (lookupA st.m (normOf r)).isSome then st.g.reactions
      else mergeNode st.g.reactions (ridOf st r) (normOf r, descOf r) := rfl

theorem pr_hr (st : St) (r : Rec) :
    (process_record st r).g.hasReaction =
      linkTwo st.g.hasReaction (aIdOf r) (bIdOf r) (ridOf st r) := rfl

/-- `any` on the key field is membership among the mapped keys. -/
theorem any_fst_iff {β : Type} (ds : List (String × β)) (x : String) :
    ds.any (fun d => d.1 == x) = true ↔ x ∈ ds.map Prod.fst := by
  simp [List.any_eq_true, List.mem_map]

theorem mergeNode_map_fst_of_mem {β : Type} (ds : List (String × β))
    (id : String) (v : β) (h : id ∈ ds.map Prod.fst) :
    (mergeNode ds id v).map Prod.fst = ds.map Prod.fst := by
  unfold mergeNode
  rw [if_pos ((any_fst_iff ds id).mpr h), List.map_map]
  apply List.map_congr_left
  intro d _
  by_cases hdi : (d.1 == id) = true
  · simp only [Function.comp_apply, if_pos hdi]
    exact (eq_of_beq hdi).symm
  · simp only [Function.comp_apply, if_neg hdi]

theorem mergeNode_map_fst_of_not_mem {β : Type} (ds : List (String × β))
    (id : String) (v : β) (h : ¬ id ∈ ds.map Prod.fst) :
    (mergeNode ds id v).map Prod.fst = ds.map Prod.fst ++ [id] := by
  unfold mergeNode
  rw [if_neg (fun hc => h ((any_fst_iff ds id).mp hc)), List.map_append]
  rfl

theorem mergeNode_fst_mono {β : Type} (ds : List (String × β)) (id : String)
    (v : β) (x : String) (h : x ∈ ds.map Prod.fst) :
    x ∈ (mergeNode ds id v).map Prod.fst := by
  by_cases hmem : id ∈ ds.map Prod.fst
  · rw [mergeNode_map_fst_of_mem ds id v hmem]; exact h
  · rw [mergeNode_map_fst_of_not_mem ds id v hmem]
    exact List.mem_append_left _ h

theorem mergeNode_self_mem {β : Type} (ds : List (String × β)) (id : String)
    (v : β) : id ∈ (mergeNode ds id v).map Prod.fst := by
  by_cases hmem : id ∈ ds.map Prod.fst
  · rw [mergeNode_map_fst_of_mem ds id v hmem]; exact hmem
  · rw [mergeNode_map_fst_of_not_mem ds id v hmem]
    exact List.mem_append_right _ (by simp)

/-- `mergeNode` on a present key keeps the store's length. -/
theorem mergeNode_length_of_mem {β : Type} (ds : List (String × β))
    (id : String) (v : β) (h : id ∈ ds.map Prod.fst) :
    (mergeNode ds id v).length = ds.length := by
  have := mergeNode_map_fst_of_mem ds id v h
  have h2 := congrArg List.length this
  rwa [List.length_map, List.length_map] at h2

theorem interExists_iff (is : List (String × String × String)) (a b : String) :
    interExists is a b = true ↔ (a, b) ∈ is.map iKey := by
  simp [interExists, List.any_eq_true, List.mem_map, iKey, Prod.ext_iff]

theorem hasLink_iff (hr : List (String × String)) (d rid : String) :
    hasLink hr d rid = true ↔ (d, rid) ∈ hr := by
  simp only [hasLink, List.any_eq_true, Bool.and_eq_true, beq_iff_eq]
  constructor
  · rintro ⟨e, he, h1, h2⟩
    have : e = (d, rid) := Prod.ext_iff.mpr ⟨h1, h2⟩
    rwa [this] at he
  · intro h
    exact ⟨(d, rid), h, rfl, rfl⟩

theorem lookupA_append_of_none (m : List (String × String)) (k v : String)
    (h : lookupA m k = none) : lookupA (m ++ [(k, v)]) k = some v := by
  unfold lookupA at h ⊢
  have h0 : m.find? (fun p => p.1 == k) = none := by
    cases hf : m.find? (fun p => p.1 == k) with
    | none => rfl
    | some p => rw [hf] at h; simp at h
  rw [List.find?_append, h0, Option.none_or]
  simp

theorem lookupA_append_of_some (m ext : List (String × String)) (k v : String)
    (h : lookupA m k = some v) : lookupA (m ++ ext) k = some v := by
  unfold lookupA at h ⊢
  cases hf : m.find? (fun p => p.1 == k) with
  | none => rw [hf] at h; simp at h
  | some p =>
    rw [hf] at h
    rw [List.find?_append, hf]
    exact h

/-- The record's canonical form is mapped after the record is processed,
to exactly the id the record resolved. -/
theorem process_record_m_lookup (st : St) (r : Rec) :
    lookupA (process_record st r).m (normOf r) = some (ridOf st r) := by
  rw [pr_m]
  cases hf : lookupA st.m (normOf r) with
  | some v =>
    simp only [hf, Option.isSome_some, if_true, ridOf, Option.getD_some]
  | none =>
    simp only [hf, Option.isSome_none, Bool.false_eq_true, if_false]
    exact lookupA_append_of_none st.m _ _ hf

/-- Existing map entries survive a record, with their values. -/
theorem process_record_m_mono (st : St) (r : Rec) (k v : String)
    (h : lookupA st.m k = some v) :
    lookupA (process_record st r).m k = some v := by
  rw [pr_m]
  by_cases hf : (lookupA st.m (normOf r)).isSome
  · rw [if_pos hf]; exact h
  · rw [if_neg hf]
    exact lookupA_append_of_some st.m _ k v h

/-- The map and counter updates of a record depend only on the incoming map
and counter, never on the graph or stats. -/
theorem process_record_mc (s1 s2 : St) (r : Rec) (hm : s2.m = s1.m)
    (hc : s2.c = s1.c) :
    (process_record s2 r).m = (process_record s1 r).m ∧
    (process_record s2 r).c = (process_record s1 r).c := by
  constructor
  · rw [pr_m, pr_m]; simp only [ridOf, hm, hc]
  · rw [pr_c, pr_c]; simp only [hm, hc]

theorem ridOf_congr (s1 s2 : St) (r : Rec) (hm : s2.m = s1.m)
    (hc : s2.c = s1.c) : ridOf s2 r = ridOf s1 r := by
  simp only [ridOf, hm, hc]

/-! Per-record membership facts: what a record guarantees is present
afterwards, and that nothing present is ever removed. -/

theorem process_record_drug_mono (st : St) (r : Rec) (x : String)
    (h : x ∈ st.g.drugs.map Prod.fst) :
    x ∈ (process_record st r).g.drugs.map Prod.fst := by
  rw [pr_drugs]
  exact mergeNode_fst_mono _ _ _ _ (mergeNode_fst_mono _ _ _ _ h)

theorem process_record_drug_self_a (st : St) (r : Rec) :
    aIdOf r ∈ (process_record st r).g.drugs.map Prod.fst := by
  rw [pr_drugs]
  exact mergeNode_fst_mono _ _ _ _ (mergeNode_self_mem _ _ _)

theorem process_record_drug_self_b (st : St) (r : Rec) :
    bIdOf r ∈ (process_record st r).g.drugs.map Prod.fst := by
  rw [pr_drugs]
  exact mergeNode_self_mem _ _ _

theorem process_record_inter_mono (st : St) (r : Rec) (p : String × String)
    (h : p ∈ st.g.inters.map iKey) :
    p ∈ (process_record st r).g.inters.map iKey := by
  rw [pr_inters]
  split
  · exact h
  · rw [List.map_append]
    exact List.mem_append_left _ h

theorem process_record_inter_self (st : St) (r : Rec) :
    (aIdOf r, bIdOf r) ∈ (process_record st r).g.inters.map iKey := by
  rw [pr_inters]
  by_cases hd : interExists st.g.inters (aIdOf r) (bIdOf r) = true
  · rw [if_pos hd]
    exact (interExists_iff _ _ _).mp hd
  · rw [if_neg hd, List.map_append]
    exact List.mem_append_right _ (by simp [iKey])

theorem process_record_react_mono (st : St) (r : Rec) (x : String)
    (h : x ∈ st.g.reactions.map Prod.fst) :
    x ∈ (process_record st r).g.reactions.map Prod.fst := by
  rw [pr_reactions]
  split
  · exact h
  · exact mergeNode_fst_mono _ _ _ _ h

theorem linkTwo_mono (hr : List (String × String)) (a b rid : String)
    (p : String × String) (h : p ∈ hr) : p ∈ linkTwo hr a b rid := by
  simp only [linkTwo]
  split
  · split
    · exact h
    · exact List.mem_append_left _ h
  · split
    · exact List.mem_append_left _ h
    · exact List.mem_append_left _ (List.mem_append_left _ h)

theorem linkTwo_self_a (hr : List (String × String)) (a b rid : String) :
    (a, rid) ∈ linkTwo hr a b rid := by
  simp only [linkTwo]
  split
  · rename_i hl
    have hmem := (hasLink_iff _ _ _).mp hl
    split
    · exact hmem
    · exact List.mem_append_left _ hmem
  · split
    · exact List.mem_append_right _ (by simp)
    · exact List.mem_append_left _ (List.mem_append_right _ (by simp))

theorem linkTwo_self_b (hr : List (String × String)) (a b rid : String) :
    (b, rid) ∈ linkTwo hr a b rid := by
  simp only [linkTwo]
  split <;>
    · split
      · rename_i hlb
        exact (hasLink_iff _ _ _).mp hlb
      · exact List.mem_append_right _ (by simp)

theorem linkTwo_eq_of_mem (hr : List (String × String)) (a b rid : String)
    (ha : (a, rid) ∈ hr) (hb : (b, rid) ∈ hr) : linkTwo hr a b rid = hr := by
  simp only [linkTwo]
  rw [if_pos ((hasLink_iff _ _ _).mpr ha), if_pos ((hasLink_iff _ _ _).mpr hb)]

theorem process_record_hr_mono (st : St) (r : Rec) (p : String × String)
    (h : p ∈ st.g.hasReaction) : p ∈ (process_record st r).g.hasReaction := by
  rw [pr_hr]
  exact linkTwo_mono _ _ _ _ p h

theorem process_record_hr_self_a (st : St) (r : Rec) :
    (aIdOf r, ridOf st r) ∈ (process_record st r).g.hasReaction := by
  rw [pr_hr]
  exact linkTwo_self_a _ _ _ _

theorem process_record_hr_self_b (st : St) (r : Rec) :
    (bIdOf r, ridOf st r) ∈ (process_record st r).g.hasReaction := by
  rw [pr_hr]
  exact linkTwo_self_b _ _ _ _

/-- The id a record resolves is a Reaction node key afterwards, provided
every previously mapped id already was one. -/
theorem process_record_rid_in_graph (st : St) (r : Rec)
    (hinv : ∀ p ∈ st.m, p.2 ∈ st.g.reactions.map Prod.fst) :
    ridOf st r ∈ (process_record st r).g.reactions.map Prod.fst := by
  rw [pr_reactions]
  cases hf : lookupA st.m (normOf r) with
  | some v =>
    simp only [hf, Option.isSome_some, if_true]
    have hv : ridOf st r = v := by simp [ridOf, hf]
    rw [hv]
    unfold lookupA at hf
    cases hp : st.m.find? (fun p => p.1 == (normOf r)) with
    | none => rw [hp] at hf; simp at hf
    | some p =>
      rw [hp] at hf
      simp only [Option.map_some', Option.some.injEq] at hf
      rw [← hf]
      exact hinv p (List.mem_of_find?_eq_some hp)
  | none =>
    simp only [hf, Option.isSome_none, Bool.false_eq_true, if_false]
    exact mergeNode_self_mem _ _ _

/-- The map-to-graph invariant — every mapped reaction id names an existing
Reaction node — is preserved by each record. -/
theorem process_record_inv (st : St) (r : Rec)
    (hinv : ∀ p ∈ st.m, p.2 ∈ st.g.reactions.map Prod.fst) :
    ∀ p ∈ (process_record st r).m,
      p.2 ∈ (process_record st r).g.reactions.map Prod.fst := by
  intro p hp
  rw [pr_m] at hp
  by_cases hf : (lookupA st.m (normOf r)).isSome
  · rw [if_pos hf] at hp
    exact process_record_react_mono st r p.2 (hinv p hp)
  · rw [if_neg hf] at hp
    rcases List.mem_append.mp hp with hold | hnew
    · exact process_record_react_mono st r p.2 (hinv p hold)
    · have : p = (normOf r, ridOf st r) := by simpa using hnew
      rw [this]
      exact process_record_rid_in_graph st r hinv

/-- Replaying a record against a store that already contains everything the
record would write changes nothing in the graph: the drug merges hit
existing keys, the interaction and both links are skipped, and the reaction
MERGE (if its canonical form is new to the replay's fresh map) hits the
existing node. -/
theorem process_record_replay (s1 s2 : St) (r : Rec) (hm : s2.m = s1.m)
    (hc : s2.c = s1.c)
    (hda : aIdOf r ∈ s2.g.drugs.map Prod.fst)
    (hdb : bIdOf r ∈ s2.g.drugs.map Prod.fst)
    (hi : (aIdOf r, bIdOf r) ∈ s2.g.inters.map iKey)
    (hrid : ridOf s1 r ∈ s2.g.reactions.map Prod.fst)
    (hla : (aIdOf r, ridOf s1 r) ∈ s2.g.hasReaction)
    (hlb : (bIdOf r, ridOf s1 r) ∈ s2.g.hasReaction) :
    (process_record s2 r).g.drugs.map Prod.fst = s2.g.drugs.map Prod.fst ∧
    (process_record s2 r).g.inters = s2.g.inters ∧
    (process_record s2 r).g.reactions.map Prod.fst =
      s2.g.reactions.map Prod.fst ∧
    (process_record s2 r).g.hasReaction = s2.g.hasReaction := by
  have hrid2 : ridOf s2 r = ridOf s1 r := ridOf_congr s1 s2 r hm hc
  refine ⟨?_, ?_, ?_, ?_⟩
  · rw [pr_drugs]
    rw [mergeNode_map_fst_of_mem _ _ _
      (by rw [mergeNode_map_fst_of_mem _ _ _ hda]; exact hdb)]
    exact mergeNode_map_fst_of_mem _ _ _ hda
  · rw [pr_inters, if_pos ((interExists_iff _ _ _).mpr hi)]
  · rw [pr_reactions]
    split
    · rfl
    · rw [hrid2]
      exact mergeNode_map_fst_of_mem _ _ _ hrid
  · rw [pr_hr, hrid2]
    exact linkTwo_eq_of_mem _ _ _ _ hla hlb

/-! Fold-level consequences. -/

theorem processRecords_drug_mono (l : List Rec) : ∀ (st : St) (x : String),
    x ∈ st.g.drugs.map Prod.fst →
    x ∈ (processRecords st l).g.drugs.map Prod.fst := by
  induction l with
  | nil => intro st x h; exact h
  | cons r t ih => intro st x h; exact ih _ x (process_record_drug_mono st r x h)

theorem processRecords_inter_mono (l : List Rec) :
    ∀ (st : St) (p : String × String), p ∈ st.g.inters.map iKey →
      p ∈ (processRecords st l).g.inters.map iKey := by
  induction l with
  | nil => intro st p h; exact h
  | cons r t ih => intro st p h; exact ih _ p (process_record_inter_mono st r p h)

theorem processRecords_react_mono (l : List Rec) : ∀ (st : St) (x : String),
    x ∈ st.g.reactions.map Prod.fst →
    x ∈ (processRecords st l).g.reactions.map Prod.fst := by
  induction l with
  | nil => intro st x h; exact h
  | cons r t ih => intro st x h; exact ih _ x (process_record_react_mono st r x h)

theorem processRecords_hr_mono (l : List Rec) :
    ∀ (st : St) (p : String × String), p ∈ st.g.hasReaction →
      p ∈ (processRecords st l).g.hasReaction := by
  induction l with
  | nil => intro st p h; exact h
  | cons r t ih => intro st p h; exact ih _ p (process_record_hr_mono st r p h)

theorem processRecords_inv (l : List Rec) :
    ∀ (st : St), (∀ p ∈ st.m, p.2 ∈ st.g.reactions.map Prod.fst) →
      ∀ p ∈ (processRecords st l).m,
        p.2 ∈ (processRecords st l).g.reactions.map Prod.fst := by
  induction l with
  | nil => intro st h; exact h
  | cons r t ih => intro st h; exact ih _ (process_record_inv st r h)

/-- Replaying records against the graph a completed run produced (with a
fresh map, counter and stats) leaves the key sets of all four stores
exactly as the completed run left them. -/
theorem replay_fold (l : List Rec) : ∀ (s1 s2 : St),
    s2.m = s1.m → s2.c = s1.c →
    (∀ p ∈ s1.m, p.2 ∈ s1.g.reactions.map Prod.fst) →
    s2.g.drugs.map Prod.fst = (processRecords s1 l).g.drugs.map Prod.fst →
    s2.g.inters = (processRecords s1 l).g.inters →
    s2.g.reactions.map Prod.fst =
      (processRecords s1 l).g.reactions.map Prod.fst →
    s2.g.hasReaction = (processRecords s1 l).g.hasReaction →
    (processRecords s2 l).g.drugs.map Prod.fst =
      (processRecords s1 l).g.drugs.map Prod.fst ∧
    (processRecords s2 l).g.inters = (processRecords s1 l).g.inters ∧
    (processRecords s2 l).g.reactions.map Prod.fst =
      (processRecords s1 l).g.reactions.map Prod.fst ∧
    (processRecords s2 l).g.hasReaction =
      (processRecords s1 l).g.hasReaction := by
  induction l with
  | nil => intro s1 s2 _ _ _ hd hi hr hh; exact ⟨hd, hi, hr, hh⟩
  | cons r t ih =>
    intro s1 s2 hm hc hinv hd hi hr hh
    have hda : aIdOf r ∈ s2.g.drugs.map Prod.fst := by
      rw [hd]
      exact processRecords_drug_mono t _ _ (process_record_drug_self_a s1 r)
    have hdb : bIdOf r ∈ s2.g.drugs.map Prod.fst := by
      rw [hd]
      exact processRecords_drug_mono t _ _ (process_record_drug_self_b s1 r)
    have hi' : (aIdOf r, bIdOf r) ∈ s2.g.inters.map iKey := by
      rw [hi]
      exact processRecords_inter_mono t _ _ (process_record_inter_self s1 r)
    have hrid : ridOf s1 r ∈ s2.g.reactions.map Prod.fst := by
      rw [hr]
      exact processRecords_react_mono t _ _
        (process_record_rid_in_graph s1 r hinv)
    have hla : (aIdOf r, ridOf s1 r) ∈ s2.g.hasReaction := by
      rw [hh]
      exact processRecords_hr_mono t _ _ (process_record_hr_self_a s1 r)
    have hlb : (bIdOf r, ridOf s1 r) ∈ s2.g.hasReaction := by
      rw [hh]
      exact processRecords_hr_mono t _ _ (process_record_hr_self_b s1 r)
    have step := process_record_replay s1 s2 r hm hc hda hdb hi' hrid hla hlb
    have mc := process_record_mc s1 s2 r hm hc
    exact ih (process_record s1 r) (process_record s2 r) mc.1 mc.2
      (process_record_inv s1 r hinv) (step.1.trans hd) (step.2.1.trans hi)
      (step.2.2.1.trans hr) (step.2.2.2.trans hh)

/-! ## Claim C2 — replay idempotence -/

/-- C2: for every record sequence, a second full run replayed from offset 0
against the graph left by a completed first run (checkpoint cleared, so the
stats, reaction map and counter restart fresh) leaves the counts of Drug
nodes, INTERACTS_WITH edges, Reaction nodes and HAS_REACTION edges exactly
as after the first run. -/
theorem c2_replay_idempotent (rs : List Rec) :
    (processRecords { initialState with
        g := (processRecords initialState rs).g } rs).g.drugs.length =
      (processRecords initialState rs).g.drugs.length ∧
    (processRecords { initialState with
        g := (processRecords initialState rs).g } rs).g.inters.length =
      (processRecords initialState rs).g.inters.length ∧
    (processRecords { initialState with
        g := (processRecords initialState rs).g } rs).g.reactions.length =
      (processRecords initialState rs).g.reactions.length ∧
    (processRecords { initialState with
        g := (processRecords initialState rs).g } rs).g.hasReaction.length =
      (processRecords initialState rs).g.hasReaction.length := by
  have h := replay_fold rs initialState
    { initialState with g := (processRecords initialState rs).g }
    rfl rfl (by intro p hp; simp [initialState] at hp) rfl rfl rfl rfl
  refine ⟨?_, ?_, ?_, ?_⟩
  · have := congrArg List.length h.1
    rwa [List.length_map, List.length_map] at this
  · exact congrArg List.length h.2.1
  · have := congrArg List.length h.2.2.1
    rwa [List.length_map, List.length_map] at this
  · exact congrArg List.length h.2.2.2

/-! ## Claim C5 — at most one INTERACTS_WITH edge per ordered pair -/

/-- The stored description of the INTERACTS_WITH edge for an ordered pair,
if any. -/
def lookupInter (is : List (String × String × String)) (a b : String) :
    Option String :=
  (is.find? (fun e => e.1 == a && e.2.1 == b)).map (·.2.2)

/-- The (stripped) description of the first record in the input carrying
the ordered id pair `(a, b)`, if any. -/
def firstDesc (l : List Rec) (a b : String) : Option String :=
  (l.find? (fun r => aIdOf r == a && bIdOf r == b)).map descOf

theorem lookupInter_isSome (is : List (String × String × String))
    (a b : String) : (lookupInter is a b).isSome = interExists is a b := by
  unfold lookupInter interExists
  rw [Option.isSome_map']
  apply Bool.eq_iff_iff.mpr
  rw [List.find?_isSome, List.any_eq_true]

/-- One record keeps every pair key unique: a duplicate ordered pair is
detected by the existence check and skipped. -/
theorem process_record_iKeys_nodup (st : St) (r : Rec)
    (h : (st.g.inters.map iKey).Nodup) :
    ((process_record st r).g.inters.map iKey).Nodup := by
  rw [pr_inters]
  by_cases hd : interExists st.g.inters (aIdOf r) (bIdOf r) = true
  · rw [if_pos hd]; exact h
  · rw [if_neg hd, List.map_append]
    rw [List.nodup_append]
    refine ⟨h, List.nodup_singleton _, ?_⟩
    intro p hp hps
    have hpk : p = (aIdOf r, bIdOf r) := by simpa [iKey] using hps
    rw [hpk] at hp
    exact hd ((interExists_iff _ _ _).mpr hp)

theorem processRecords_iKeys_nodup (l : List Rec) :
    ∀ (st : St), (st.g.inters.map iKey).Nodup →
      ((processRecords st l).g.inters.map iKey).Nodup := by
  induction l with
  | nil => intro st h; exact h
  | cons r t ih => intro st h; exact ih _ (process_record_iKeys_nodup st r h)

/-- The interactions-skipped counter advances by one exactly when the
record's ordered pair already has an edge. -/
theorem process_record_iskip (st : St) (r : Rec) :
    (process_record st r).stats.interactions_skipped =
      st.stats.interactions_skipped +
        (if interExists st.g.inters (aIdOf r) (bIdOf r) then 1 else 0) := by
  simp only [process_record, aIdOf, bIdOf]
  split_ifs <;> rfl

/-- One record's effect on the stored description of an ordered pair: the
first record for a pair stores its (stripped) description, every later one
leaves the store untouched. -/
theorem process_record_lookupInter (st : St) (r : Rec) (a b : String) :
    lookupInter (process_record st r).g.inters a b =
      (lookupInter st.g.inters a b).or
        (if aIdOf r == a && bIdOf r == b then some (descOf r) else none) := by
  rw [pr_inters]
  by_cases hd : interExists st.g.inters (aIdOf r) (bIdOf r) = true
  · rw [if_pos hd]
    by_cases hab : (aIdOf r == a && bIdOf r == b) = true
    · rw [if_pos hab]
      have hab' : (aIdOf r == a) = true ∧ (bIdOf r == b) = true := by
        simpa using hab
      have hsome : (lookupInter st.g.inters a b).isSome = true := by
        rw [lookupInter_isSome, ← eq_of_beq hab'.1, ← eq_of_beq hab'.2]
        exact hd
      obtain ⟨v, hv⟩ := Option.isSome_iff_exists.mp hsome
      rw [hv]
      rfl
    · rw [if_neg hab, Option.or_none]
  · rw [if_neg hd]
    unfold lookupInter
    rw [List.find?_append]
    cases hf : st.g.inters.find? (fun e => e.1 == a && e.2.1 == b) with
    | some p =>
      rfl
    | none =>
      simp only [Option.none_or, List.find?_cons, List.find?_nil]
      by_cases hab : (aIdOf r == a && bIdOf r == b) = true
      · simp [hab]
      · simp [hab]

/-- Over a whole run, the stored description for a pair is the existing one
or else that of the first input record carrying the pair. -/
theorem processRecords_lookupInter (l : List Rec) : ∀ (st : St) (a b : String),
    lookupInter (processRecords st l).g.inters a b =
      (lookupInter st.g.inters a b).or (firstDesc l a b) := by
  induction l with
  | nil =>
    intro st a b
    simp [processRecords, firstDesc, Option.or_none]
  | cons r t ih =>
    intro st a b
    have hcons : processRecords st (r :: t) =
        processRecords (process_record st r) t := rfl
    rw [hcons, ih, process_record_lookupInter, Option.or_assoc]
    congr 1
    unfold firstDesc
    rw [List.find?_cons]
    by_cases hp : (aIdOf r == a && bIdOf r == b) = true
    · simp [hp]
    · simp [Bool.eq_false_iff.mpr hp, hp]

/-- C5: after any ingestion from an empty store there is at most one
INTERACTS_WITH edge per ordered `(drugA, drugB)` id pair; a record whose
ordered pair already has an edge leaves the edge store untouched and bumps
`interactions_skipped` by one; and the stored description of every present
pair is the (field-stripped) description of the first input record carrying
that ordered pair — never overwritten by later records. -/
theorem c5_ordered_pair_unique (rs : List Rec) :
    (((processRecords initialState rs).g.inters.map iKey).Nodup) ∧
    (∀ (st : St) (r : Rec),
      interExists st.g.inters (aIdOf r) (bIdOf r) = true →
      (process_record st r).g.inters = st.g.inters ∧
      (process_record st r).stats.interactions_skipped =
        st.stats.interactions_skipped + 1) ∧
    (∀ a b, lookupInter (processRecords initialState rs).g.inters a b =
      firstDesc rs a b) := by
  refine ⟨?_, ?_, ?_⟩
  · exact processRecords_iKeys_nodup rs initialState (by simp [initialState])
  · intro st r h
    constructor
    · rw [pr_inters, if_pos h]
    · rw [process_record_iskip, if_pos h]
  · intro a b
    rw [processRecords_lookupInter rs initialState a b]
    simp [initialState, lookupInter]

/-- The first of two records carrying the same ordered pair. -/
def recP : Rec := ⟨"X1", "Foo", "X2", "Bar", "first description"⟩

/-- The second record for the pair, with a different description. -/
def recQ : Rec := ⟨"X1", "Foo", "X2", "Bar", "second description"⟩

/-- C5 witness: replaying the same ordered pair leaves the single edge with
the first record's description and counts the duplicate as skipped. -/
theorem c5_witness :
    (process_record (processRecords initialState [recP]) recQ).g.inters =
      (processRecords initialState [recP]).g.inters ∧
    (process_record (processRecords initialState [recP]) recQ).stats.interactions_skipped =
      (processRecords initialState [recP]).stats.interactions_skipped + 1 ∧
    lookupInter (processRecords initialState [recP, recQ]).g.inters "X1" "X2" =
      some "first description" := by
  refine ⟨((c5_ordered_pair_unique []).2.1 _ recQ (by decide)).1,
    ((c5_ordered_pair_unique []).2.1 _ recQ (by decide)).2, ?_⟩
  rw [(c5_ordered_pair_unique [recP, recQ]).2.2 "X1" "X2"]
  decide

/-! ## Claim C6 — checkpoint save only after batch commit -/

/-- Auxiliary induction (on an upper bound of the remaining records) for the
trace shape of a successful ingestion. -/
theorem ingestTrace_shape : ∀ (k n bs s : Nat), n - s ≤ k → 0 < bs →
    ((∀ i pc, (ingestTrace n bs s)[i]? = some (Event.save pc) →
      ∃ j s0, j + 1 = i ∧
        (ingestTrace n bs s)[j]? = some (Event.commit s0 pc) ∧
        pc = s0 + min bs (n - s0)) ∧
    (ingestTrace n bs s).getLast? = some Event.clearCp) := by
  intro k
  induction k with
  | zero =>
    intro n bs s hk hbs
    unfold ingestTrace
    rw [dif_neg (by omega)]
    constructor
    · intro i pc hi
      cases i with
      | zero => simp at hi
      | succ i0 => simp at hi
    · rfl
  | succ k ih =>
    intro n bs s hk hbs
    by_cases hlt : s < min (s + bs) n
    · have hrec := ih n bs (min (s + bs) n) (by omega) hbs
      unfold ingestTrace
      rw [dif_pos hlt]
      constructor
      · intro i pc hi
        match i with
        | 0 => simp at hi
        | 1 =>
          simp only [List.getElem?_cons_succ, List.getElem?_cons_zero,
            Option.some.injEq, Event.save.injEq] at hi
          refine ⟨0, s, rfl, ?_, ?_⟩
          · simp [hi]
          · omega
        | (i1 + 2) =>
          have hi' : (ingestTrace n bs (min (s + bs) n))[i1]? =
              some (Event.save pc) := by simpa using hi
          obtain ⟨j, s0, hj1, hj2, hj3⟩ := hrec.1 i1 pc hi'
          refine ⟨j + 2, s0, by omega, by simpa using hj2, hj3⟩
      · have h2 := hrec.2
        cases hrest : ingestTrace n bs (min (s + bs) n) with
        | nil => rw [hrest] at h2; simp at h2
        | cons x t =>
          rw [List.getLast?_cons_cons, List.getLast?_cons_cons, ← hrest]
          exact h2
    · unfold ingestTrace
      rw [dif_neg hlt]
      constructor
      · intro i pc hi
        cases i with
        | zero => simp at hi
        | succ i0 => simp at hi
      · rfl

/-- C6: in a successful ingestion run with a positive batch size, every
checkpoint save is immediately preceded by the commit of its batch, the
saved `processedCount` is the batch's start offset plus the batch length
`min bs (n - s0)` (i.e. `batch_end = min(batch_start + BATCH_SIZE, n)`),
and the run's final event clears the checkpoint. -/
theorem c6_commit_then_checkpoint (n bs s : Nat) (hbs : 0 < bs) :
    (∀ i pc, (ingestTrace n bs s)[i]? = some (Event.save pc) →
      ∃ j s0, j + 1 = i ∧
        (ingestTrace n bs s)[j]? = some (Event.commit s0 pc) ∧
        pc = s0 + min bs (n - s0)) ∧
    (ingestTrace n bs s).getLast? = some Event.clearCp :=
  ingestTrace_shape (n - s) n bs s (Nat.le_refl _) hbs

/-- C6 witness: the three-batch trace over 7 records with batch size 3 ends
by clearing the checkpoint, and its first save (index 1) follows the
commit of records 0-3. -/
theorem c6_witness :
    (ingestTrace 7 3 0).getLast? = some Event.clearCp ∧
    (∃ j s0, j + 1 = 1 ∧
      (ingestTrace 7 3 0)[j]? = some (Event.commit s0 3) ∧
      3 = s0 + min 3 (7 - s0)) :=
  ⟨(c6_commit_then_checkpoint 7 3 0 (by decide)).2,
   (c6_commit_then_checkpoint 7 3 0 (by decide)).1 1 3 (by simp [ingestTrace])⟩

/-! ## Claim C7 — entity-resolution priority -/

/-- Filtering with a weaker predicate does not change what a stronger
`find?` sees. -/
theorem find?_filter_of_imp {α : Type} (l : List α) (p q : α → Bool)
    (himp : ∀ a, p a = true → q a = true) :
    (l.filter q).find? p = l.find? p := by
  induction l with
  | nil => rfl
  | cons a t ih =>
    rw [List.filter_cons]
    by_cases hq : q a = true
    · rw [if_pos hq]
      cases hp : p a <;> simp [List.find?_cons, hp, ih]
    · rw [if_neg hq]
      have hp : p a = false := by
        cases hpa : p a
        · rfl
        · exact absurd (himp a hpa) hq
      simp [List.find?_cons, hp, ih]

/-- The head of a filtered list is the first element satisfying the
filter. -/
theorem head?_filter_eq_find? {α : Type} (l : List α) (q : α → Bool) :
    (l.filter q).head? = l.find? q := by
  induction l with
  | nil => rfl
  | cons a t ih =>
    rw [List.filter_cons]
    by_cases hq : q a = true
    · rw [if_pos hq]
      simp [List.find?_cons, hq]
    · rw [if_neg hq]
      have hq' : q a = false := Bool.of_not_eq_true hq
      simp [List.find?_cons, hq', ih]

/-- C7, counterexample: a store holding a single Drug node whose name
(`Asp`) is a strict substring of the query (`Aspirin`), with no exact name
or id match, resolves to not-found: the Cypher WHERE clause only tests
`toLower(name) CONTAINS toLower(query)`, never the converse direction the
claim asserts. -/
theorem c7_counterexample :
    strContains (lowerS "Aspirin").data (lowerS "Asp").data = true ∧
    lowerS "Asp" ≠ lowerS "Aspirin" ∧
    lowerS "D1" ≠ lowerS "Aspirin" ∧
    entity_search [("D1", "Asp")] "Aspirin" = none := by
  decide

/-- C7, amended: graph-store entity resolution returns the first match by
priority: exact case-insensitive node-name match first, then exact
case-insensitive id match, then the substring tier, which accepts only
nodes whose stored name contains the query (case-insensitively) — a stored
name that is merely contained in the query does not match, and with no
match in any tier the resolution is not-found. -/
theorem c7_resolution_priority (drugs : List (String × String)) (q : String) :
    ((∃ d ∈ drugs, nameEqCI q d = true) →
      entity_search drugs q = drugs.find? (nameEqCI q)) ∧
    ((∀ d ∈ drugs, nameEqCI q d = false) → (∃ d ∈ drugs, idEqCI q d = true) →
      entity_search drugs q = drugs.find? (idEqCI q)) ∧
    ((∀ d ∈ drugs, nameEqCI q d = false) → (∀ d ∈ drugs, idEqCI q d = false) →
      entity_search drugs q = drugs.find? (nameContainsQ q)) ∧
    ((∀ d ∈ drugs, entityMatches q d = false) →
      entity_search drugs q = none) := by
  have himpName : ∀ d, nameEqCI q d = true → entityMatches q d = true := by
    intro d h
    simp [entityMatches, h]
  have himpId : ∀ d, idEqCI q d = true → entityMatches q d = true := by
    intro d h
    simp [entityMatches, h]
  refine ⟨?_, ?_, ?_, ?_⟩
  · intro hex
    simp only [entity_search]
    rw [find?_filter_of_imp drugs (nameEqCI q) (entityMatches q) himpName]
    obtain ⟨d0, hd0⟩ := Option.isSome_iff_exists.mp
      (List.find?_isSome.mpr (by
        obtain ⟨d, hd, hdeq⟩ := hex
        exact ⟨d, hd, hdeq⟩))
    rw [hd0]
  · intro hno hex
    simp only [entity_search]
    rw [find?_filter_of_imp drugs (nameEqCI q) (entityMatches q) himpName,
      List.find?_eq_none.mpr (by intro d hd; simp [hno d hd]),
      find?_filter_of_imp drugs (idEqCI q) (entityMatches q) himpId]
    obtain ⟨d0, hd0⟩ := Option.isSome_iff_exists.mp
      (List.find?_isSome.mpr (by
        obtain ⟨d, hd, hdeq⟩ := hex
        exact ⟨d, hd, hdeq⟩))
    rw [hd0]
  · intro hnoName hnoId
    simp only [entity_search]
    rw [find?_filter_of_imp drugs (nameEqCI q) (entityMatches q) himpName,
      List.find?_eq_none.mpr (by intro d hd; simp [hnoName d hd]),
      find?_filter_of_imp drugs (idEqCI q) (entityMatches q) himpId,
      List.find?_eq_none.mpr (by intro d hd; simp [hnoId d hd])]
    have hfil : drugs.filter (entityMatches q) =
        drugs.filter (nameContainsQ q) := by
      apply List.filter_congr
      intro d hd
      simp [entityMatches, hnoName d hd, hnoId d hd]
    rw [hfil, head?_filter_eq_find?]
  · intro hnone
    simp only [entity_search]
    have hfil : drugs.filter (entityMatches q) = [] :=
      List.filter_eq_nil_iff.mpr (by intro d hd; simp [hnone d hd])
    rw [hfil]
    rfl

/-- C7 witness: with only a substring match available (query `aspirin`
contained in stored name `AspirinX`), resolution returns that node. -/
theorem c7_witness :
    (∀ d ∈ [("D9", "Warfarin"), ("D1", "AspirinX")],
      nameEqCI "aspirin" d = false) ∧
    entity_search [("D9", "Warfarin"), ("D1", "AspirinX")] "aspirin" =
      some ("D1", "AspirinX") := by
  constructor
  · decide
  · rw [(c7_resolution_priority [("D9", "Warfarin"), ("D1", "AspirinX")]
      "aspirin").2.2.1 (by decide) (by decide)]
    decide

/-! ## Claim C8 — one relationship record per unordered pair -/

/-- The Python `seen_pairs` fold keeps its seen-set equal to the kept rows'
pair keys and duplicate-free. -/
theorem dedupFold_inv (rows : List MRow) :
    ∀ acc : List MRow × List (String × String),
      acc.2 = acc.1.map pairKey → acc.2.Nodup →
      (rows.foldl dedupStep acc).2 = (rows.foldl dedupStep acc).1.map pairKey ∧
      (rows.foldl dedupStep acc).2.Nodup := by
  induction rows with
  | nil => intro acc h1 h2; exact ⟨h1, h2⟩
  | cons r t ih =>
    intro acc h1 h2
    rw [List.foldl_cons]
    apply ih
    · unfold dedupStep
      split
      · exact h1
      · simp [h1]
    · unfold dedupStep
      split
      · exact h2
      · rename_i hcon
        rw [List.nodup_append]
        refine ⟨h2, List.nodup_singleton _, ?_⟩
        intro x hx hxs
        have hxk : x = pairKey r := by simpa using hxs
        rw [hxk] at hx
        exact hcon (by simpa using hx)

/-- C8: for at least two query names, the multi-entity relationship query
returns at most one record per unordered pair of resolved entity names —
the alphabetically-sorted name pairs of the output are duplicate-free, so
(A,B) and (B,A) never both appear, for every graph state (hence regardless
of the order or direction in which the pair's edges were ingested). -/
theorem c8_unordered_pair_once (g : Graph) (names : List String)
    (limit : Nat) (_h2 : 2 ≤ names.length) :
    ((multiEntityRelationships g names limit).map pairKey).Nodup := by
  unfold multiEntityRelationships dedupByPair
  have hinv := dedupFold_inv ((multiRows g names).dedup.take limit)
    ([], []) rfl List.nodup_nil
  rw [← hinv.1]
  exact hinv.2

/-- A two-drug graph carrying the interaction edge in both directions. -/
def gW : Graph :=
  { drugs := [("A1", "Aspirin"), ("W1", "Warfarin")],
    inters := [("A1", "W1", "Aspirin raises Warfarin levels."),
               ("W1", "A1", "Warfarin raises Aspirin levels.")],
    reactions := [], hasReaction := [] }

/-- C8 witness: with both `Aspirin → Warfarin` and `Warfarin → Aspirin`
edges present, the query for the pair returns exactly one record. -/
theorem c8_witness :
    2 ≤ (["Aspirin", "Warfarin"] : List String).length ∧
    ((multiEntityRelationships gW ["Aspirin", "Warfarin"] 20).map pairKey).Nodup ∧
    (multiEntityRelationships gW ["Aspirin", "Warfarin"] 20).length = 1 :=
  ⟨by decide, c8_unordered_pair_once gW ["Aspirin", "Warfarin"] 20 (by decide),
   by decide⟩

/-! ## Claim C9 — similar-drug filtering -/

/-- The filter loop only ever appends entries passing the name and score
tests, in input order. -/
theorem altFold_shape (drug_name : String) (l : List SimEntry) :
    ∀ acc : List SimEntry, ∃ t : List SimEntry,
      l.foldl (altStep drug_name) acc = acc ++ t ∧ t.Sublist l ∧
      ∀ e ∈ t, lowerTrim e.entity_name ≠ lowerTrim drug_name ∧
        e.similarity_score < 98/100 := by
  induction l with
  | nil => intro acc; exact ⟨[], by simp, List.nil_sublist _, by simp⟩
  | cons e l' ih =>
    intro acc
    rw [List.foldl_cons]
    unfold altStep
    by_cases hc : lowerTrim e.entity_name ≠ lowerTrim drug_name ∧
        e.similarity_score < 98/100 ∧ acc.length < 5
    · rw [if_pos hc]
      obtain ⟨t, ht1, ht2, ht3⟩ := ih (acc ++ [e])
      refine ⟨e :: t, by simpa using ht1, List.cons_sublist_cons.mpr ht2, ?_⟩
      intro x hx
      rcases List.mem_cons.mp hx with hx | hx
      · rw [hx]; exact ⟨hc.1, hc.2.1⟩
      · exact ht3 x hx
    · rw [if_neg hc]
      obtain ⟨t, ht1, ht2, ht3⟩ := ih acc
      exact ⟨t, ht1, ht2.cons e, ht3⟩

/-- C9: for every query name and every similarity-search result list ranked
by descending score, the filtered alternatives never contain an entry whose
lowered/stripped name equals the query's, never contain an entry with score
at least 0.98, number at most 5, and remain ranked by descending score. -/
theorem c9_alternatives_filter (drug_name : String) (alts : List SimEntry)
    (hsorted : alts.Pairwise scoreDesc) :
    (∀ e ∈ find_drug_alternatives drug_name alts,
      lowerTrim e.entity_name ≠ lowerTrim drug_name ∧
      e.similarity_score < 98/100) ∧
    (find_drug_alternatives drug_name alts).length ≤ 5 ∧
    (find_drug_alternatives drug_name alts).Pairwise scoreDesc := by
  obtain ⟨t, ht1, ht2, ht3⟩ := altFold_shape drug_name alts []
  unfold find_drug_alternatives
  rw [ht1, List.nil_append]
  refine ⟨?_, List.length_take_le _ _, ?_⟩
  · intro e he
    exact ht3 e (List.mem_of_mem_take he)
  · exact List.Pairwise.sublist ((List.take_sublist 5 t).trans ht2) hsorted

/-- Concrete ranked similarity results for the C9 witness: the query drug
itself (as a 0.99-scoring near-duplicate and as a cased/padded exact name)
among seven genuine candidates. -/
def altsW : List SimEntry :=
  [⟨"Aspirin", 99/100⟩, ⟨"Ibuprofen", 9/10⟩, ⟨"Naproxen", 85/100⟩,
   ⟨" aspirin ", 8/10⟩, ⟨"Diclofenac", 7/10⟩, ⟨"Ketoprofen", 6/10⟩,
   ⟨"Celecoxib", 5/10⟩, ⟨"Meloxicam", 4/10⟩, ⟨"Piroxicam", 3/10⟩]

/-- C9 witness: the filter applied to `altsW` for query `Aspirin`. -/
theorem c9_witness :
    altsW.Pairwise scoreDesc ∧
    (find_drug_alternatives "Aspirin" altsW).length ≤ 5 ∧
    (find_drug_alternatives "Aspirin" altsW).Pairwise scoreDesc := by
  have hs : altsW.Pairwise scoreDesc := by
    norm_num [altsW, List.pairwise_cons, scoreDesc]
  exact ⟨hs, (c9_alternatives_filter "Aspirin" altsW hs).2.1,
    (c9_alternatives_filter "Aspirin" altsW hs).2.2⟩

/-! ## Claim C10 — vector point ids and payloads -/

/-- With a positive batch size the batched upload produces exactly the
points of the full index range, in order. -/
theorem uploadLoop_eq (names : List String) (bs : Nat) (hbs : 0 < bs) :
    ∀ fuel s, names.length ≤ s + fuel →
      uploadLoop names bs fuel s = batchPoints names s names.length := by
  intro fuel
  induction fuel with
  | zero =>
    intro s h
    unfold uploadLoop batchPoints
    have hz : names.length - s = 0 := by omega
    rw [hz]
    rfl
  | succ f ih =>
    intro s h
    simp only [uploadLoop]
    by_cases hlt : s < min (s + bs) names.length
    · rw [if_pos hlt, ih (min (s + bs) names.length) (by omega)]
      unfold batchPoints
      rw [← List.map_append]
      have heq := List.range'_append s (min (s + bs) names.length - s)
        (names.length - min (s + bs) names.length) 1
      rw [show s + 1 * (min (s + bs) names.length - s) =
        min (s + bs) names.length by omega] at heq
      rw [show names.length - min (s + bs) names.length +
        (min (s + bs) names.length - s) = names.length - s by omega] at heq
      rw [heq]
    · rw [if_neg hlt]
      unfold batchPoints
      have hz : names.length - s = 0 := by omega
      rw [hz]
      rfl

/-- C10: with a positive batch size, the point uploaded at source array
position `idx` has point id `idx`, payload `drug_name` equal to the source
name at `idx`, and payload `drug_id` equal to the decimal string of that
same `idx` — the array position, identical to the point id, carrying no
external drug identifier. -/
theorem c10_point_id_is_index (names : List String) (bs idx : Nat)
    (hbs : 0 < bs) (hidx : idx < names.length) :
    (uploadPoints names bs)[idx]? =
      some ⟨idx, names.getD idx "", Nat.repr idx⟩ := by
  unfold uploadPoints
  rw [uploadLoop_eq names bs hbs (names.length + 1) 0 (by omega)]
  unfold batchPoints
  rw [List.getElem?_map, Nat.sub_zero,
    List.getElem?_range' 0 1 hidx]
  simp

/-- C10 witness: the third point of a three-name upload with batch size 2. -/
theorem c10_witness :
    (0 : Nat) < 2 ∧
    (uploadPoints ["Aspirin", "Warfarin", "Metformin"] 2)[2]? =
      some ⟨2, "Metformin", "2"⟩ := by
  refine ⟨by decide, ?_⟩
  rw [c10_point_id_is_index ["Aspirin", "Warfarin", "Metformin"] 2 2
    (by decide) (by decide)]
  rfl

end PharmaSense
